import Mathlib

/-!
Shallow embedding of `github.go` (a GitHub community-reporting tool) and
verification of its specification.  The paginated listings are embedded as
fuel-bounded loops over an injected page-fetch function; `none` marks fuel
exhaustion (the Go loop not terminating), `some (.error e)` an aborted run and
`some (.ok _)` a completed one.
-/

namespace Community

/-- Errors are modelled as plain messages; `errors.Trace` only annotates an
error with context and is embedded as the identity. -/
abbrev Err := String

/-- The fields of `github.User` that the verified operations inspect: the
numeric ID value and, because `listCommits` keys its map on the `*int` ID
pointer, the address of that pointer.  Profile fields that never influence
control flow (login, name, email, ...) are elided. -/
structure GUser where
  idAddr : Nat
  idVal : Int
deriving DecidableEq, Repr

/-- One page of a paginated listing: the decoded items plus `resp.NextPage`;
`0` is the sentinel for "no more pages". -/
structure Page (α : Type) where
  items : List α
  next : Nat
deriving DecidableEq, Repr

/-- A page-fetch function bound to one endpoint: the page token (`opt.Page`)
to the decoded page or a transport error. -/
abbrev FetchFn (α : Type) := Nat → Except Err (Page α)

/-- A hydration function: `client.Users.GetByID`. -/
abbrev HydrateFn := Int → Except Err GUser

/-- The configuration fields read by the listing operations. -/
structure Config where
  Owner : String
  Repo : String
  StartDate : String
  EndDate : String

/-- A commit as decoded from the listing; `commit.Author` dereferenced.
Each decoded commit carries its own freshly allocated `*int` ID, so the
`idAddr` of distinct commits' authors are distinct in real runs. -/
structure Commit where
  author : GUser
deriving DecidableEq, Repr

/-- A fork entry: `*repo.Owner.ID` and `repo.CreatedAt.Time`. -/
structure ForkItem where
  ownerId : Int
  createdAt : Int
deriving DecidableEq, Repr

/-- A stargazer entry: the embedded user stub and `stargazer.StarredAt.Time`. -/
structure StarItem where
  user : GUser
  starredAt : Int
deriving DecidableEq, Repr

/-- An issue entry: `*issue.User.ID`. -/
structure IssueItem where
  userId : Int
deriving DecidableEq, Repr

/-- The digits of a decimal literal folded to a `Nat`; `none` when empty or
containing a non-digit. -/
def parseUnsigned (cs : List Char) : Option Nat :=
  match cs with
  | [] => none
  | _ =>
    if cs.all Char.isDigit then
      some (cs.foldl (fun a c => a * 10 + (c.toNat - 48)) 0)
    else none

/-- `strconv.ParseInt(s, 10, 64)`: optional sign, decimal digits, 64-bit
range check. -/
def parseInt64 (cs : List Char) : Except Err Int :=
  let sb : Bool × List Char :=
    match cs with
    | '+' :: rest => (false, rest)
    | '-' :: rest => (true, rest)
    | rest => (false, rest)
  match parseUnsigned sb.2 with
  | none => .error "invalid syntax"
  | some n =>
    let v : Int := if sb.1 then -(n : Int) else (n : Int)
    if v < -(2 ^ 63) ∨ 2 ^ 63 - 1 < v then .error "value out of range"
    else .ok v

/-- Modelled from the spec: `parseDate` is not under `src/`; per the spec it
parses a calendar date string (no time-of-day) into a timestamp and can fail
on malformed input.  Dates are abstracted to integers written in decimal,
which preserves everything the claims depend on: parsing can fail, and
successful parses yield totally ordered timestamps. -/
def parseDate (s : String) : Except Err Int :=
  match parseInt64 s.data with
  | .ok v => .ok v
  | .error _ => .error ("parse date: " ++ s)

/-- Modelled from the spec: `checkTime` is not under `src/`; the spec (§9)
records the reference behavior as "not before start" and "not after end",
i.e. inclusive on both ends. -/
def checkTime (start en t : Int) : Bool :=
  decide (start ≤ t) && decide (t ≤ en)

/-- `useTimeFilter := len(cfg.StartDate) > 0 && len(cfg.EndDate) > 0`. -/
def useTimeFilter (cfg : Config) : Bool :=
  decide (0 < cfg.StartDate.length) && decide (0 < cfg.EndDate.length)

/-- The body of the per-page `for _, item := range items` loop: thread the
state through `step`, aborting at the first error. -/
def processPage {σ α : Type} (step : σ → α → Except Err σ) : σ → List α → Except Err σ
  | st, [] => .ok st
  | st, it :: its =>
    match step st it with
    | .error e => .error e
    | .ok st2 => processPage step st2 its

/-- The pagination loop shared by the listings: fetch the page at the current
token, abort on a fetch error, process the page's items, stop once
`resp.NextPage` is the sentinel `0`, else advance to `resp.NextPage`.
`fuel` bounds the number of iterations; `none` means the loop did not finish
within the fuel. -/
def collectLoop {σ α : Type} (fetch : FetchFn α) (step : σ → α → Except Err σ) :
    Nat → Nat → σ → Option (Except Err σ)
  | 0, _, _ => none
  | fuel + 1, tok, st =>
    match fetch tok with
    | .error e => some (.error e)
    | .ok pg =>
      match processPage step st pg.items with
      | .error e => some (.error e)
      | .ok st2 =>
        if pg.next = 0 then some (.ok st2)
        else collectLoop fetch step fuel pg.next st2

/-- Per-item body of the timestamped listings (`listForkers`,
`listStargazers`): skip the item when the time filter is on and rejects its
timestamp, otherwise resolve the actor and append actor and timestamp. -/
def timedStep {α : Type} (time : α → Int) (resolve : α → Except Err GUser)
    (utf : Bool) (s en : Int) (st : List GUser × List Int) (it : α) :
    Except Err (List GUser × List Int) :=
  if utf && !(checkTime s en (time it)) then .ok st
  else
    match resolve it with
    | .error e => .error e
    | .ok u => .ok (st.1 ++ [u], st.2 ++ [time it])

/-- The shared preamble of `listForkers` and `listStargazers`: compute
`useTimeFilter`, parse both dates when it is set (aborting on a parse
error), then run the loop with the parsed window. -/
def withWindow {β : Type} (cfg : Config) (run : Bool → Int → Int → Option (Except Err β)) :
    Option (Except Err β) :=
  if useTimeFilter cfg then
    match parseDate cfg.StartDate with
    | .error e => some (.error e)
    | .ok s =>
      match parseDate cfg.EndDate with
      | .error e => some (.error e)
      | .ok en => run true s en
  else run false 0 0

/-- `listForkers`: walk the fork listing, filter by the optional window on
`repo.CreatedAt`, hydrate the fork's owner by ID, and accumulate the parallel
user/time sequences. -/
def listForkers (cfg : Config) (fetch : FetchFn ForkItem) (hyd : HydrateFn)
    (fuel : Nat) : Option (Except Err (List GUser × List Int)) :=
  withWindow cfg (fun utf s en =>
    collectLoop fetch
      (timedStep ForkItem.createdAt (fun it => hyd it.ownerId) utf s en)
      fuel 0 ([], []))

/-- The stargazer item's actor: the embedded stub when `onlyID` is set,
otherwise a hydration lookup by the stub's ID. -/
def starResolve (onlyID : Bool) (hyd : HydrateFn) (it : StarItem) : Except Err GUser :=
  if onlyID then .ok it.user else hyd it.user.idVal

/-- `listStargazers`: like `listForkers`, over `stargazer.StarredAt`, with the
`onlyID` shortcut that reuses the embedded user stub instead of hydrating. -/
def listStargazers (cfg : Config) (fetch : FetchFn StarItem) (hyd : HydrateFn)
    (onlyID : Bool) (fuel : Nat) : Option (Except Err (List GUser × List Int)) :=
  withWindow cfg (fun utf s en =>
    collectLoop fetch
      (timedStep StarItem.starredAt (starResolve onlyID hyd) utf s en)
      fuel 0 ([], []))

/-- Per-item body of `listIssues`: skip IDs already in `userCache`, hydrate
new ones, append the user and record the ID in the cache. -/
def issueStep (hyd : HydrateFn) (st : List GUser × List Int) (it : IssueItem) :
    Except Err (List GUser × List Int) :=
  if it.userId ∈ st.2 then .ok st
  else
    match hyd it.userId with
    | .error e => .error e
    | .ok u => .ok (st.1 ++ [u], it.userId :: st.2)

/-- `listIssues`: walk the issue listing, dedup reporters by numeric ID via
`userCache`, hydrate each new reporter, return the users. -/
def listIssues (fetch : FetchFn IssueItem) (hyd : HydrateFn) (fuel : Nat) :
    Option (Except Err (List GUser)) :=
  match collectLoop fetch (issueStep hyd) fuel 0 ([], []) with
  | none => none
  | some (.error e) => some (.error e)
  | some (.ok st) => some (.ok st.1)

/-- The `for _, commit := range commits` body of `listCommits`: the map
`users` is `map[*int]*github.User`, so its key is the identity of the
author's `*int` ID pointer, embedded as `idAddr`.  The map is represented as
an association list in insertion order. -/
def insertAuthors : List (Nat × GUser) → List Commit → List (Nat × GUser)
  | entries, [] => entries
  | entries, c :: cs =>
    if entries.any (fun p => p.1 == c.author.idAddr) then insertAuthors entries cs
    else insertAuthors (entries ++ [(c.author.idAddr, c.author)]) cs

/-- The pagination loop of `listCommits`, instrumented with the list of page
tokens actually fetched (first component of the result) so that fetch-call
counting is expressible. -/
def commitsLoop (fetch : FetchFn Commit) :
    Nat → Nat → List (Nat × GUser) → Option (List Nat × Except Err (List (Nat × GUser)))
  | 0, _, _ => none
  | fuel + 1, tok, entries =>
    match fetch tok with
    | .error e => some ([tok], .error e)
    | .ok pg =>
      let entries2 := insertAuthors entries pg.items
      if pg.next = 0 then some ([tok], .ok entries2)
      else
        match commitsLoop fetch fuel pg.next entries2 with
        | none => none
        | some r => some (tok :: r.1, r.2)

/-- The entries of the `users` map of `listCommits` after the loop, in
insertion order. -/
def commitsEntries (fetch : FetchFn Commit) (fuel : Nat) :
    Option (Except Err (List (Nat × GUser))) :=
  match commitsLoop fetch fuel 0 [] with
  | none => none
  | some r => some r.2

/-- The possible return values of `listCommits`: the final
`for _, user := range users` ranges over a Go map, whose iteration order is
unspecified, so every permutation of the accumulated entries is an admissible
output. -/
def listCommitsCan (fetch : FetchFn Commit) (fuel : Nat) (out : List GUser) : Prop :=
  ∃ entries, commitsEntries fetch fuel = some (.ok entries) ∧
    (entries.map Prod.snd).Perm out

/-- The sorted name list that `printRepos` hands to the output formatter:
collect `*repo.Name` and `sort.Strings` it.  Go's sort is modelled by
insertion sort; the sorted permutation of a list is unique, so any correct
sort denotes the same list. -/
structure Repo where
  name : String
deriving DecidableEq, Repr

def printReposNames (repos : List Repo) : List String :=
  List.insertionSort (fun a b => a ≤ b) (repos.map Repo.name)

/-- `printRepos` logs the names joined by newlines. -/
def printRepos (repos : List Repo) : String :=
  String.intercalate "\n" (printReposNames repos)

/-! ### `listUsers`: the file-driven explicit-ID listing

The file content is a `List Char`.  `bufio.ReadString` with delimiter
newline yields each newline-terminated line (delimiter included); at end of
file it returns the unterminated remainder together with `io.EOF`, and the
Go loop `if err == io.EOF { break }` discards that remainder. -/

/-- Split the content into its newline-terminated lines (each including its
final newline) and the unterminated remainder. -/
def readLinesAux : List Char → List Char → List (List Char) × List Char
  | acc, [] => ([], acc.reverse)
  | acc, c :: cs =>
    if c = '\n' then
      let r := readLinesAux [] cs
      ((acc.reverse ++ [c]) :: r.1, r.2)
    else readLinesAux (c :: acc) cs

def readLines (s : List Char) : List (List Char) × List Char :=
  readLinesAux [] s

/-- Go's `unicode.IsSpace`: the Unicode White_Space property — TAB (9),
LF (10), VT (11), FF (12), CR (13), space (32), NEL (U+0085), NBSP (U+00A0),
U+1680, U+2000..U+200A, U+2028, U+2029, U+202F, U+205F and U+3000.
(`strings.Fields`' asciiSpace fast path agrees with this on ASCII.) -/
def goIsSpace (c : Char) : Bool :=
  decide (c.toNat = 9) || decide (c.toNat = 10) || decide (c.toNat = 11) ||
  decide (c.toNat = 12) || decide (c.toNat = 13) || decide (c.toNat = 32) ||
  decide (c.toNat = 0x85) || decide (c.toNat = 0xA0) ||
  decide (c.toNat = 0x1680) ||
  (decide (0x2000 ≤ c.toNat) && decide (c.toNat ≤ 0x200A)) ||
  decide (c.toNat = 0x2028) || decide (c.toNat = 0x2029) ||
  decide (c.toNat = 0x202F) || decide (c.toNat = 0x205F) ||
  decide (c.toNat = 0x3000)

/-- `strings.TrimSpace`: drop leading and trailing `unicode.IsSpace`
characters. -/
def trimSpace (s : List Char) : List Char :=
  ((s.dropWhile goIsSpace).reverse.dropWhile goIsSpace).reverse

/-- `strings.Fields`: the maximal runs of non-`unicode.IsSpace`
characters. -/
def fieldsAux : List Char → List Char → List (List Char)
  | cur, [] => if cur = [] then [] else [cur.reverse]
  | cur, c :: cs =>
    if goIsSpace c then
      if cur = [] then fieldsAux [] cs else cur.reverse :: fieldsAux [] cs
    else fieldsAux (c :: cur) cs

def fields (s : List Char) : List (List Char) :=
  fieldsAux [] s

/-- `strings.Fields(strings.TrimSpace(line))`. -/
def lineFields (line : List Char) : List (List Char) :=
  fields (trimSpace line)

/-- The per-line body of `listUsers`: `datas := strings.Fields(...)`, then
`datas[0]` — which in Go panics (index out of range) when the line has no
fields; the panic is embedded as `none` — then `strconv.ParseInt` and the
`GetByID` lookup, each aborting the whole run on error. -/
def processLines (hyd : HydrateFn) : List (List Char) → List GUser → Option (Except Err (List GUser))
  | [], acc => some (.ok acc)
  | line :: rest, acc =>
    match lineFields line with
    | [] => none
    | d :: _ =>
      match parseInt64 d with
      | .error e => some (.error e)
      | .ok id =>
        match hyd id with
        | .error e => some (.error e)
        | .ok u => processLines hyd rest (acc ++ [u])

/-- `listUsers`: read the user-list file line by line, look up each line's
leading numeric ID, abort on any malformed line or failed lookup.  The
unterminated final line, if any, is discarded by the `io.EOF` branch before
being processed. -/
def listUsers (hyd : HydrateFn) (content : List Char) : Option (Except Err (List GUser)) :=
  processLines hyd (readLines content).1 []

/-! ### Specification-side definitions

These follow the spec's words and are compared with the embedded code by the
refinement theorems below. -/

/-- The complete multi-page listing: `ChainItems fetch tok items` holds when
following `resp.NextPage` from token `tok` until the sentinel `0` succeeds
everywhere and concatenates the pages' items to `items`. -/
inductive ChainItems {α : Type} (fetch : FetchFn α) : Nat → List α → Prop where
  | last : ∀ tok pg, fetch tok = .ok pg → pg.next = 0 → ChainItems fetch tok pg.items
  | more : ∀ tok pg rest, fetch tok = .ok pg → pg.next ≠ 0 →
      ChainItems fetch pg.next rest → ChainItems fetch tok (pg.items ++ rest)

/-- The tokens of the page chain from `tok` to the first sentinel page,
in fetch order. -/
inductive Chain {α : Type} (fetch : FetchFn α) : Nat → List Nat → Prop where
  | last : ∀ tok pg, fetch tok = .ok pg → pg.next = 0 → Chain fetch tok [tok]
  | more : ∀ tok pg toks, fetch tok = .ok pg → pg.next ≠ 0 →
      Chain fetch pg.next toks → Chain fetch tok (tok :: toks)

/-- `Reach fetch tok t`: the pagination loop started at `tok` eventually
requests the page at token `t`. -/
inductive Reach {α : Type} (fetch : FetchFn α) : Nat → Nat → Prop where
  | refl : ∀ tok, Reach fetch tok tok
  | step : ∀ tok t pg, Reach fetch tok t → fetch t = .ok pg → pg.next ≠ 0 →
      Reach fetch tok pg.next

/-- Whether a record with timestamp `t` passes the time-window filter under
configuration `cfg`: everything passes unless both dates are supplied, in
which case the parsed inclusive window decides (the parse-failure fallback is
never reached on a completed run, which aborts on a parse error). -/
def windowKeep (cfg : Config) (t : Int) : Bool :=
  if useTimeFilter cfg then
    match parseDate cfg.StartDate, parseDate cfg.EndDate with
    | .ok s, .ok en => checkTime s en t
    | _, _ => true
  else true

/-- Spec-side description of a timestamped listing: keep exactly the items
passing `keep`, resolve each kept item to its actor, and pair the actor with
the item's timestamp, aborting at the first resolution error. -/
def specTimedPairs {α : Type} (keep : Int → Bool) (time : α → Int)
    (resolve : α → Except Err GUser) : List α → Except Err (List (GUser × Int))
  | [] => .ok []
  | it :: its =>
    if keep (time it) then
      match resolve it with
      | .error e => .error e
      | .ok u =>
        match specTimedPairs keep time resolve its with
        | .error e => .error e
        | .ok ps => .ok ((u, time it) :: ps)
    else specTimedPairs keep time resolve its

/-- First-seen order: the IDs not in `seen`, in order of first occurrence. -/
def firstSeenIds (seen : List Int) : List Int → List Int
  | [] => []
  | id :: ids =>
    if id ∈ seen then firstSeenIds seen ids
    else id :: firstSeenIds (id :: seen) ids

/-- Hydrate a list of IDs in order, aborting at the first error. -/
def hydIds (hyd : HydrateFn) : List Int → Except Err (List GUser)
  | [] => .ok []
  | id :: ids =>
    match hyd id with
    | .error e => .error e
    | .ok u =>
      match hydIds hyd ids with
      | .error e => .error e
      | .ok us => .ok (u :: us)

/-! ### Generic lemmas about the pagination loop -/

lemma processPage_append_ok {σ α : Type} {step : σ → α → Except Err σ}
    {st st1 : σ} {xs : List α} (h : processPage step st xs = .ok st1) (ys : List α) :
    processPage step st (xs ++ ys) = processPage step st1 ys := by
  induction xs generalizing st with
  | nil =>
    simp only [processPage] at h
    cases h
    simp [processPage]
  | cons x xs ih =>
    simp only [processPage, List.cons_append] at h ⊢
    cases hs : step st x with
    | error e => rw [hs] at h; cases h
    | ok st2 => rw [hs] at h; exact ih h

/-- A completed run of the pagination loop walks the whole chain and
processes exactly its concatenated items. -/
lemma collect_ok {σ α : Type} {fetch : FetchFn α} {step : σ → α → Except Err σ} :
    ∀ {fuel tok st st2}, collectLoop fetch step fuel tok st = some (.ok st2) →
      ∃ items, ChainItems fetch tok items ∧ processPage step st items = .ok st2 := by
  intro fuel
  induction fuel with
  | zero => intro tok st st2 h; simp [collectLoop] at h
  | succ f ih =>
    intro tok st st2 h
    simp only [collectLoop] at h
    cases hf : fetch tok with
    | error e => simp [hf] at h
    | ok pg =>
      simp only [hf] at h
      cases hp : processPage step st pg.items with
      | error e => simp [hp] at h
      | ok st1 =>
        simp only [hp] at h
        by_cases hn : pg.next = 0
        · rw [if_pos hn] at h
          have : st1 = st2 := by
            have := Option.some.inj h
            exact Except.ok.inj this
          subst this
          exact ⟨pg.items, ChainItems.last tok pg hf hn, hp⟩
        · rw [if_neg hn] at h
          obtain ⟨rest, hc, hpr⟩ := ih h
          exact ⟨pg.items ++ rest, ChainItems.more tok pg rest hf hn hc,
            by rw [processPage_append_ok hp]; exact hpr⟩

/-- A completed run makes a successful fetch at its starting token. -/
lemma collect_ok_head {σ α : Type} {fetch : FetchFn α} {step : σ → α → Except Err σ}
    {fuel tok st st2} (h : collectLoop fetch step fuel tok st = some (.ok st2)) :
    ∃ pg st1, fetch tok = .ok pg ∧ processPage step st pg.items = .ok st1 := by
  cases fuel with
  | zero => simp [collectLoop] at h
  | succ f =>
    simp only [collectLoop] at h
    cases hf : fetch tok with
    | error e => simp [hf] at h
    | ok pg =>
      simp only [hf] at h
      cases hp : processPage step st pg.items with
      | error e => simp [hp] at h
      | ok st1 => exact ⟨pg, st1, rfl, hp⟩

/-- If a run completes, the loop also completes from every token it reaches. -/
lemma collect_reach_ok {σ α : Type} {fetch : FetchFn α} {step : σ → α → Except Err σ}
    {fuel tok0 st0 res tok}
    (h : collectLoop fetch step fuel tok0 st0 = some (.ok res))
    (hr : Reach fetch tok0 tok) :
    ∃ f st r, collectLoop fetch step f tok st = some (.ok r) := by
  induction hr with
  | refl => exact ⟨fuel, st0, res, h⟩
  | step t pg _ hf hn ih =>
    obtain ⟨f, st, r, hl⟩ := ih
    cases f with
    | zero => simp [collectLoop] at hl
    | succ g =>
      simp only [collectLoop] at hl
      simp only [hf] at hl
      cases hp : processPage step st pg.items with
      | error e => simp [hp] at hl
      | ok st1 =>
        simp only [hp, if_neg hn] at hl
        exact ⟨g, st1, r, hl⟩

/-- Every item of a successfully processed page was handled by a successful
`step` from some state. -/
lemma processPage_ok_all {σ α : Type} {step : σ → α → Except Err σ} :
    ∀ {items : List α} {st st2}, processPage step st items = .ok st2 →
      ∀ it ∈ items, ∃ s1 s2, step s1 it = .ok s2 := by
  intro items
  induction items with
  | nil => intro st st2 _ it hit; cases hit
  | cons x xs ih =>
    intro st st2 h it hit
    simp only [processPage] at h
    cases hs : step st x with
    | error e => rw [hs] at h; cases h
    | ok st1 =>
      rw [hs] at h
      rcases List.mem_cons.mp hit with rfl | hx
      · exact ⟨st, st1, hs⟩
      · exact ih h it hx

/-- If some item of the page fails its `step` from every state, the page
processing fails from every state. -/
lemma processPage_fails {σ α : Type} {step : σ → α → Except Err σ} {it : α}
    (hfail : ∀ s, ∃ e, step s it = .error e) :
    ∀ {items : List α}, it ∈ items → ∀ st, ∃ e, processPage step st items = .error e := by
  intro items
  induction items with
  | nil => intro hit; cases hit
  | cons x xs ih =>
    intro hit st
    simp only [processPage]
    cases hs : step st x with
    | error e => exact ⟨e, rfl⟩
    | ok st1 =>
      rcases List.mem_cons.mp hit with rfl | hx
      · obtain ⟨e, he⟩ := hfail st
        rw [hs] at he
        cases he
      · exact ih hx st1

/-- The loop started at `tok` aborts with an error, whatever state it starts
from and given enough fuel. -/
def FailsFrom {σ α : Type} (fetch : FetchFn α) (step : σ → α → Except Err σ) (tok : Nat) : Prop :=
  ∀ st, ∃ f e, collectLoop fetch step f tok st = some (.error e)

lemma failsFrom_fetch {σ α : Type} {fetch : FetchFn α} {step : σ → α → Except Err σ}
    {tok e} (hf : fetch tok = .error e) : FailsFrom fetch step tok := by
  intro st
  exact ⟨1, e, by simp [collectLoop, hf]⟩

lemma failsFrom_item {σ α : Type} {fetch : FetchFn α} {step : σ → α → Except Err σ}
    {tok pg} {it : α} (hf : fetch tok = .ok pg) (hit : it ∈ pg.items)
    (hfail : ∀ s, ∃ e, step s it = .error e) : FailsFrom fetch step tok := by
  intro st
  obtain ⟨e, he⟩ := processPage_fails hfail hit st
  exact ⟨1, e, by simp [collectLoop, hf, he]⟩

/-- A failure at a reached token propagates back to the start of the run. -/
lemma failsFrom_reach {σ α : Type} {fetch : FetchFn α} {step : σ → α → Except Err σ}
    {tok0 tok} (hr : Reach fetch tok0 tok) (hf : FailsFrom fetch step tok) :
    FailsFrom fetch step tok0 := by
  induction hr with
  | refl => exact hf
  | step t pg _ hft hn ih =>
    apply ih
    intro st
    cases hp : processPage step st pg.items with
    | error e => exact ⟨1, e, by simp [collectLoop, hft, hp]⟩
    | ok st1 =>
      obtain ⟨f, e, he⟩ := hf st1
      exact ⟨f + 1, e, by simp [collectLoop, hft, hp, hn, he]⟩

/-! ### Refinement of the timestamped listings -/

lemma processPage_timed {α : Type} {time : α → Int} {resolve : α → Except Err GUser}
    {utf : Bool} {s en : Int} :
    ∀ {items : List α} {us ts us2 ts2},
      processPage (timedStep time resolve utf s en) (us, ts) items = .ok (us2, ts2) →
      ∃ ps, specTimedPairs (fun t => !(utf && !(checkTime s en t))) time resolve items = .ok ps ∧
        us2 = us ++ ps.map Prod.fst ∧ ts2 = ts ++ ps.map Prod.snd := by
  intro items
  induction items with
  | nil =>
    intro us ts us2 ts2 h
    simp only [processPage, Except.ok.injEq, Prod.mk.injEq] at h
    obtain ⟨rfl, rfl⟩ := h
    exact ⟨[], rfl, by simp, by simp⟩
  | cons it its ih =>
    intro us ts us2 ts2 h
    simp only [processPage] at h
    cases hs : timedStep time resolve utf s en (us, ts) it with
    | error e => simp [hs] at h
    | ok st1 =>
      simp only [hs] at h
      obtain ⟨us1, ts1⟩ := st1
      unfold timedStep at hs
      by_cases hk : (utf && !(checkTime s en (time it))) = true
      · rw [if_pos hk] at hs
        simp only [Except.ok.injEq, Prod.mk.injEq] at hs
        obtain ⟨rfl, rfl⟩ := hs
        obtain ⟨ps, hsp, hu, ht⟩ := ih h
        refine ⟨ps, ?_, hu, ht⟩
        simp only [specTimedPairs, hk, Bool.not_true, Bool.false_eq_true, if_false]
        exact hsp
      · rw [if_neg hk] at hs
        cases hr : resolve it with
        | error e => simp [hr] at hs
        | ok u =>
          simp only [hr, Except.ok.injEq, Prod.mk.injEq] at hs
          obtain ⟨rfl, rfl⟩ := hs
          obtain ⟨ps, hsp, hu, ht⟩ := ih h
          have hk2 : (!(utf && !(checkTime s en (time it)))) = true := by
            simp only [Bool.not_eq_true] at hk
            simp [hk]
          refine ⟨(u, time it) :: ps, ?_, ?_, ?_⟩
          · simp only [specTimedPairs, hk2, if_true, hr, hsp]
          · rw [hu]; simp
          · rw [ht]; simp

lemma specTimedPairs_snd {α : Type} {keep : Int → Bool} {time : α → Int}
    {resolve : α → Except Err GUser} :
    ∀ {items : List α} {ps}, specTimedPairs keep time resolve items = .ok ps →
      ps.map Prod.snd = (items.filter (fun it => keep (time it))).map time := by
  intro items
  induction items with
  | nil =>
    intro ps h
    simp only [specTimedPairs, Except.ok.injEq] at h
    subst h
    simp
  | cons it its ih =>
    intro ps h
    simp only [specTimedPairs] at h
    by_cases hk : keep (time it) = true
    · rw [if_pos hk] at h
      cases hr : resolve it with
      | error e => rw [hr] at h; cases h
      | ok u =>
        rw [hr] at h
        cases hrec : specTimedPairs keep time resolve its with
        | error e => rw [hrec] at h; cases h
        | ok ps1 =>
          rw [hrec] at h
          obtain rfl := Except.ok.inj h
          simp only [List.map_cons, List.filter_cons, hk, if_true]
          rw [ih hrec]
    · rw [if_neg hk] at h
      simp only [List.filter_cons, hk]
      simp only [Bool.false_eq_true, if_false]
      exact ih h

lemma windowKeep_utf {cfg : Config} {s en : Int}
    (hu : useTimeFilter cfg = true)
    (hs : parseDate cfg.StartDate = .ok s) (he : parseDate cfg.EndDate = .ok en) :
    windowKeep cfg = fun t => !((true : Bool) && !(checkTime s en t)) := by
  funext t
  simp [windowKeep, hu, hs, he]

lemma windowKeep_no_utf {cfg : Config} (hu : useTimeFilter cfg = false) :
    windowKeep cfg = fun t => !((false : Bool) && !(checkTime 0 0 t)) := by
  funext t
  simp [windowKeep, hu]

/-- What a completed `listForkers` run returns: the chain's items filtered by
the window, each kept fork's owner hydrated, users and times the parallel
projections of one list of pairs. -/
lemma forkers_ok {cfg fetch hyd fuel us ts}
    (h : listForkers cfg fetch hyd fuel = some (.ok (us, ts))) :
    ∃ items ps, ChainItems fetch 0 items ∧
      specTimedPairs (windowKeep cfg) ForkItem.createdAt (fun it => hyd it.ownerId) items = .ok ps ∧
      us = ps.map Prod.fst ∧ ts = ps.map Prod.snd := by
  unfold listForkers withWindow at h
  cases hu : useTimeFilter cfg with
  | false =>
    rw [hu] at h
    simp only [Bool.false_eq_true, if_false] at h
    obtain ⟨items, hc, hp⟩ := collect_ok h
    obtain ⟨ps, hsp, hus, hts⟩ := processPage_timed hp
    rw [windowKeep_no_utf hu]
    exact ⟨items, ps, hc, hsp, by simpa using hus, by simpa using hts⟩
  | true =>
    rw [hu] at h
    simp only [if_true] at h
    cases hs : parseDate cfg.StartDate with
    | error e => simp [hs] at h
    | ok s =>
      simp only [hs] at h
      cases he : parseDate cfg.EndDate with
      | error e => simp [he] at h
      | ok en =>
        simp only [he] at h
        obtain ⟨items, hc, hp⟩ := collect_ok h
        obtain ⟨ps, hsp, hus, hts⟩ := processPage_timed hp
        rw [windowKeep_utf hu hs he]
        exact ⟨items, ps, hc, hsp, by simpa using hus, by simpa using hts⟩

/-- What a completed `listStargazers` run returns. -/
lemma stargazers_ok {cfg fetch hyd onlyID fuel us ts}
    (h : listStargazers cfg fetch hyd onlyID fuel = some (.ok (us, ts))) :
    ∃ items ps, ChainItems fetch 0 items ∧
      specTimedPairs (windowKeep cfg) StarItem.starredAt (starResolve onlyID hyd) items = .ok ps ∧
      us = ps.map Prod.fst ∧ ts = ps.map Prod.snd := by
  unfold listStargazers withWindow at h
  cases hu : useTimeFilter cfg with
  | false =>
    rw [hu] at h
    simp only [Bool.false_eq_true, if_false] at h
    obtain ⟨items, hc, hp⟩ := collect_ok h
    obtain ⟨ps, hsp, hus, hts⟩ := processPage_timed hp
    rw [windowKeep_no_utf hu]
    exact ⟨items, ps, hc, hsp, by simpa using hus, by simpa using hts⟩
  | true =>
    rw [hu] at h
    simp only [if_true] at h
    cases hs : parseDate cfg.StartDate with
    | error e => simp [hs] at h
    | ok s =>
      simp only [hs] at h
      cases he : parseDate cfg.EndDate with
      | error e => simp [he] at h
      | ok en =>
        simp only [he] at h
        obtain ⟨items, hc, hp⟩ := collect_ok h
        obtain ⟨ps, hsp, hus, hts⟩ := processPage_timed hp
        rw [windowKeep_utf hu hs he]
        exact ⟨items, ps, hc, hsp, by simpa using hus, by simpa using hts⟩

/-! ### Refinement of `listIssues` -/

lemma processPage_issue {hyd : HydrateFn} :
    ∀ {items : List IssueItem} {us seen us2 seen2},
      processPage (issueStep hyd) (us, seen) items = .ok (us2, seen2) →
      ∃ nws, hydIds hyd (firstSeenIds seen (items.map IssueItem.userId)) = .ok nws ∧
        us2 = us ++ nws := by
  intro items
  induction items with
  | nil =>
    intro us seen us2 seen2 h
    simp only [processPage, Except.ok.injEq, Prod.mk.injEq] at h
    obtain ⟨rfl, rfl⟩ := h
    exact ⟨[], rfl, by simp⟩
  | cons it its ih =>
    intro us seen us2 seen2 h
    simp only [processPage] at h
    by_cases hm : it.userId ∈ seen
    · have hstep : issueStep hyd (us, seen) it = .ok (us, seen) := by
        simp [issueStep, hm]
      simp only [hstep] at h
      obtain ⟨nws, hh, hu⟩ := ih h
      refine ⟨nws, ?_, hu⟩
      simp only [List.map_cons, firstSeenIds, if_pos hm]
      exact hh
    · cases hr : hyd it.userId with
      | error e =>
        have hstep : issueStep hyd (us, seen) it = .error e := by
          simp [issueStep, hm, hr]
        simp [hstep] at h
      | ok u =>
        have hstep : issueStep hyd (us, seen) it = .ok (us ++ [u], it.userId :: seen) := by
          simp [issueStep, hm, hr]
        simp only [hstep] at h
        obtain ⟨nws, hh, hu⟩ := ih h
        refine ⟨u :: nws, ?_, ?_⟩
        · simp only [List.map_cons, firstSeenIds, if_neg hm, hydIds, hr, hh]
        · rw [hu]; simp

/-- What a completed `listIssues` run returns: the chain's reporter IDs in
first-seen order, hydrated. -/
lemma issues_ok {fetch hyd fuel us}
    (h : listIssues fetch hyd fuel = some (.ok us)) :
    ∃ items, ChainItems fetch 0 items ∧
      hydIds hyd (firstSeenIds [] (items.map IssueItem.userId)) = .ok us := by
  unfold listIssues at h
  cases hl : collectLoop fetch (issueStep hyd) fuel 0 ([], []) with
  | none => rw [hl] at h; cases h
  | some r =>
    rw [hl] at h
    cases r with
    | error e => simp at h
    | ok st =>
      simp only [Option.some.injEq, Except.ok.injEq] at h
      obtain ⟨items, hc, hp⟩ := collect_ok hl
      obtain ⟨us1, seen1⟩ := st
      obtain ⟨nws, hh, hu⟩ := processPage_issue hp
      refine ⟨items, hc, ?_⟩
      rw [hh]
      subst h
      simp only [List.nil_append] at hu
      rw [hu]

/-! ### The `listCommits` chain walk -/

/-- Walking a terminating chain: the loop completes, fetches exactly the
chain's tokens in order, and stops at the sentinel page. -/
lemma commits_chain {fetch : FetchFn Commit} :
    ∀ {toks tok}, Chain fetch tok toks → ∀ {fuel} (acc), toks.length ≤ fuel →
      ∃ entries, commitsLoop fetch fuel tok acc = some (toks, .ok entries) := by
  intro toks tok hc
  induction hc with
  | last tok pg hf hn =>
    intro fuel acc hl
    cases fuel with
    | zero => simp at hl
    | succ f =>
      exact ⟨insertAuthors acc pg.items, by simp [commitsLoop, hf, hn]⟩
  | more tok pg toks hf hn _ ih =>
    intro fuel acc hl
    cases fuel with
    | zero => simp at hl
    | succ f =>
      have hlf : toks.length ≤ f := by
        simpa using Nat.succ_le_succ_iff.mp (by simpa using hl)
      obtain ⟨entries, he⟩ := ih (insertAuthors acc pg.items) hlf
      refine ⟨entries, ?_⟩
      simp [commitsLoop, hf, hn, he]

/-! ### Failure propagation -/

lemma timedStep_ok_resolve {α : Type} {time : α → Int} {resolve : α → Except Err GUser}
    {utf : Bool} {s en : Int} {st st2 it}
    (h : timedStep time resolve utf s en st it = .ok st2)
    (hk : (utf && !(checkTime s en (time it))) = false) :
    ∃ u, resolve it = .ok u := by
  unfold timedStep at h
  simp only [hk, Bool.false_eq_true, if_false] at h
  cases hr : resolve it with
  | error e => rw [hr] at h; cases h
  | ok u => exact ⟨u, rfl⟩

lemma timedStep_fails {α : Type} {time : α → Int} {resolve : α → Except Err GUser}
    {utf : Bool} {s en : Int} {it e}
    (hk : (utf && !(checkTime s en (time it))) = false)
    (he : resolve it = .error e) :
    ∀ st, timedStep time resolve utf s en st it = .error e := by
  intro st
  unfold timedStep
  simp [hk, he]

/-- If some reachable remote call of the run fails, the loop never completes
successfully, whatever the fuel. -/
lemma collect_no_ok_of_fail {σ α : Type} {fetch : FetchFn α} {step : σ → α → Except Err σ}
    {tok : Nat} (hr : Reach fetch 0 tok)
    (hfail : (∃ e, fetch tok = .error e) ∨
      (∃ pg it, fetch tok = .ok pg ∧ it ∈ pg.items ∧ ∀ s1, ∃ e, step s1 it = .error e)) :
    ∀ fuel st out, collectLoop fetch step fuel 0 st ≠ some (.ok out) := by
  intro fuel st out h
  obtain ⟨f, st1, r, hl⟩ := collect_reach_ok h hr
  obtain ⟨pg1, st2, hfe, hpp⟩ := collect_ok_head hl
  rcases hfail with ⟨e, he⟩ | ⟨pg, it, hok, hit, hbad⟩
  · rw [he] at hfe; cases hfe
  · rw [hok] at hfe
    obtain rfl := Except.ok.inj hfe
    obtain ⟨s1, s2, hstep⟩ := processPage_ok_all hpp it hit
    obtain ⟨e, he⟩ := hbad s1
    rw [he] at hstep
    cases hstep

/-- If some reachable remote call of the run fails, there is enough fuel for
the loop to abort with an error. -/
lemma collect_err_of_fail {σ α : Type} {fetch : FetchFn α} {step : σ → α → Except Err σ}
    {tok : Nat} (hr : Reach fetch 0 tok)
    (hfail : (∃ e, fetch tok = .error e) ∨
      (∃ pg it, fetch tok = .ok pg ∧ it ∈ pg.items ∧ ∀ s1, ∃ e, step s1 it = .error e)) :
    ∀ st, ∃ fuel e2, collectLoop fetch step fuel 0 st = some (.error e2) := by
  have hff : FailsFrom fetch step tok := by
    rcases hfail with ⟨e, he⟩ | ⟨pg, it, hok, hit, hbad⟩
    · exact failsFrom_fetch he
    · exact failsFrom_item hok hit hbad
  exact failsFrom_reach hr hff

/-! ### Concrete fixtures used by the witnesses and counterexamples -/

/-- A hydration that always succeeds, returning the looked-up ID. -/
def hydOk : HydrateFn := fun i => .ok ⟨0, i⟩

/-- A configuration with the window `[5, 20]`. -/
def cfgWin : Config := ⟨"o", "r", "5", "20"⟩

/-- A configuration with no dates set. -/
def cfgNone : Config := ⟨"o", "r", "", ""⟩

/-- One page with two commits whose authors carry the same numeric ID `7`
behind distinct freshly decoded `*int` pointers. -/
def fetchDup : FetchFn Commit :=
  fun t => if t = 0 then .ok ⟨[⟨⟨0, 7⟩⟩, ⟨⟨1, 7⟩⟩], 0⟩ else .error "unreachable"

/-- One page with two distinct commit authors. -/
def fetchTwoAuthors : FetchFn Commit :=
  fun t => if t = 0 then .ok ⟨[⟨⟨0, 5⟩⟩, ⟨⟨1, 9⟩⟩], 0⟩ else .error "unreachable"

/-- A two-page commit source: page at token `0` points to token `2`, which is
the sentinel page. -/
def fetchTwoPages : FetchFn Commit :=
  fun t =>
    if t = 0 then .ok ⟨[⟨⟨0, 5⟩⟩], 2⟩
    else if t = 2 then .ok ⟨[⟨⟨1, 9⟩⟩], 0⟩
    else .error "unreachable"

/-- One fork page: creation times `10` (inside `[5, 20]`) and `99` (outside). -/
def fetchForkOk : FetchFn ForkItem :=
  fun t => if t = 0 then .ok ⟨[⟨1, 10⟩, ⟨2, 99⟩], 0⟩ else .error "unreachable"

/-- A fork source whose second page fetch fails. -/
def fetchForkErr : FetchFn ForkItem :=
  fun t => if t = 0 then .ok ⟨[], 2⟩ else .error "boom"

/-- One stargazer page: star times `15` (inside `[5, 20]`) and `30` (outside). -/
def fetchStarOk : FetchFn StarItem :=
  fun t => if t = 0 then .ok ⟨[⟨⟨9, 77⟩, 15⟩, ⟨⟨8, 88⟩, 30⟩], 0⟩ else .error "unreachable"

/-- A two-page issue source with reporter IDs `3, 4, 3` then `4, 5`. -/
def fetchIssues : FetchFn IssueItem :=
  fun t =>
    if t = 0 then .ok ⟨[⟨3⟩, ⟨4⟩, ⟨3⟩], 2⟩
    else if t = 2 then .ok ⟨[⟨4⟩, ⟨5⟩], 0⟩
    else .error "unreachable"

/-! ### The claims -/

/-- C1: the claim says `listCommits` deduplicates by the actor's numeric ID.
The code keys the map `users` on the `*int` ID pointer, and distinct decoded
commits carry distinct pointers, so two commits by the same numeric ID `7`
both survive: the run returns two users sharing ID `7`. -/
theorem commits_same_id_not_deduped :
    commitsEntries fetchDup 1 = some (.ok [(0, ⟨0, 7⟩), (1, ⟨1, 7⟩)]) ∧
    (⟨0, 7⟩ : GUser).idVal = (⟨1, 7⟩ : GUser).idVal ∧
    listCommitsCan fetchDup 1 [⟨0, 7⟩, ⟨1, 7⟩] :=
  ⟨rfl, rfl, ⟨[(0, ⟨0, 7⟩), (1, ⟨1, 7⟩)], rfl, List.Perm.refl _⟩⟩

/-- C2 (counterexample): `listCommits` returns its users by ranging over a Go
map, so any permutation of the accumulated entries is an admissible output;
with two authors first seen as `⟨0,5⟩` then `⟨1,9⟩`, the reversed list is an
admissible output and differs from first-seen order. -/
theorem commits_order_counterexample :
    listCommitsCan fetchTwoAuthors 1 [⟨1, 9⟩, ⟨0, 5⟩] ∧
    commitsEntries fetchTwoAuthors 1 = some (.ok [(0, ⟨0, 5⟩), (1, ⟨1, 9⟩)]) ∧
    ([⟨1, 9⟩, ⟨0, 5⟩] : List GUser) ≠ [⟨0, 5⟩, ⟨1, 9⟩] :=
  ⟨⟨[(0, ⟨0, 5⟩), (1, ⟨1, 9⟩)], rfl, by decide⟩, rfl, by decide⟩

/-- C2 (amended): `listIssues` lists actors in first-seen order across pages:
a completed run returns the hydrations, in order, of the chain's reporter IDs
with all but the first occurrence of each ID removed.  (`listCommits` gives
no such guarantee: its output order is Go map iteration order.) -/
theorem issues_first_seen_order :
    ∀ (fetch : FetchFn IssueItem) (hyd : HydrateFn) (fuel : Nat) (us : List GUser),
      listIssues fetch hyd fuel = some (.ok us) →
      ∃ items, ChainItems fetch 0 items ∧
        hydIds hyd (firstSeenIds [] (items.map IssueItem.userId)) = .ok us :=
  fun _ _ _ _ h => issues_ok h

/-- Witness for `issues_first_seen_order`: reporter IDs `3,4,3` then `4,5`
across two pages yield the users for `3, 4, 5` in first-seen order. -/
theorem issues_first_seen_order_witness :
    ∃ items, ChainItems fetchIssues 0 items ∧
      hydIds hydOk (firstSeenIds [] (items.map IssueItem.userId)) =
        .ok [⟨0, 3⟩, ⟨0, 4⟩, ⟨0, 5⟩] :=
  issues_first_seen_order fetchIssues hydOk 2 [⟨0, 3⟩, ⟨0, 4⟩, ⟨0, 5⟩] rfl

/-- C5: when the page chain from the first request reaches a sentinel page,
the pagination loop of `listCommits` terminates, fetches exactly the chain's
tokens — one fetch call per page, in order — and stops at the page whose
next cursor is the sentinel `0`. -/
theorem pagination_sentinel_stops :
    ∀ (fetch : FetchFn Commit) (toks : List Nat) (fuel : Nat),
      Chain fetch 0 toks → toks.length ≤ fuel →
      ∃ entries, commitsLoop fetch fuel 0 [] = some (toks, .ok entries) :=
  fun _ _ _ hc hl => commits_chain hc [] hl

/-- Witness for `pagination_sentinel_stops`: a two-page source is walked with
exactly two fetch calls, at tokens `0` and `2`. -/
theorem pagination_sentinel_stops_witness :
    ∃ entries, commitsLoop fetchTwoPages 2 0 [] = some ([0, 2], .ok entries) :=
  pagination_sentinel_stops fetchTwoPages [0, 2] 2
    (Chain.more 0 ⟨[⟨⟨0, 5⟩⟩], 2⟩ [2] (by rfl) (by decide)
      (Chain.last 2 ⟨[⟨⟨1, 9⟩⟩], 0⟩ (by rfl) rfl))
    (by decide)

/-- C6: the name list `printRepos` hands to the output formatter is sorted
lexicographically and is a permutation of the input names; on
`["zeta","alpha","mu"]` it is `["alpha","mu","zeta"]`. -/
theorem printRepos_sorted_names :
    (∀ repos : List Repo,
      List.Sorted (fun a b : String => a ≤ b) (printReposNames repos) ∧
      (printReposNames repos).Perm (repos.map Repo.name)) ∧
    printReposNames [⟨"zeta"⟩, ⟨"alpha"⟩, ⟨"mu"⟩] = ["alpha", "mu", "zeta"] := by
  constructor
  · intro repos
    exact ⟨List.sorted_insertionSort _ _, List.perm_insertionSort _ _⟩
  · simp [printReposNames, List.insertionSort, List.orderedInsert]
    decide

lemma length_pos_iff_ne_empty {s : String} : 0 < s.length ↔ s ≠ "" := by
  rw [show s.length = s.data.length from rfl, List.length_pos]
  constructor
  · intro h he
    subst he
    exact h rfl
  · intro h hd
    apply h
    cases s
    simp only at hd
    simp [hd]

/-- C3: the time-window filter is applied exactly when both dates are
non-empty, and a record then passes exactly when
`start <= timestamp AND timestamp <= end`, inclusive on both ends; the times
kept by completed `listForkers` and `listStargazers` runs are exactly the
chain's items passing that filter, in order. -/
theorem window_filter_semantics :
    (∀ (cfg : Config) (s en t : Int),
      parseDate cfg.StartDate = .ok s → parseDate cfg.EndDate = .ok en →
      (windowKeep cfg t = true ↔
        ((cfg.StartDate ≠ "" ∧ cfg.EndDate ≠ "") → (s ≤ t ∧ t ≤ en)))) ∧
    (∀ cfg fetch hyd fuel us ts,
      listForkers cfg fetch hyd fuel = some (.ok (us, ts)) →
      ∃ items, ChainItems fetch 0 items ∧
        ts = (items.filter (fun it => windowKeep cfg it.createdAt)).map ForkItem.createdAt) ∧
    (∀ cfg fetch hyd onlyID fuel us ts,
      listStargazers cfg fetch hyd onlyID fuel = some (.ok (us, ts)) →
      ∃ items, ChainItems fetch 0 items ∧
        ts = (items.filter (fun it => windowKeep cfg it.starredAt)).map StarItem.starredAt) := by
  refine ⟨?_, ?_, ?_⟩
  · intro cfg s en t hs he
    by_cases hS : cfg.StartDate = ""
    · have hSl : ¬(0 < cfg.StartDate.length) := by simp [hS]
      simp [windowKeep, useTimeFilter, hSl, hS]
    · by_cases hE : cfg.EndDate = ""
      · have hEl : ¬(0 < cfg.EndDate.length) := by simp [hE]
        simp [windowKeep, useTimeFilter, hEl, hE]
      · have hSl : 0 < cfg.StartDate.length := length_pos_iff_ne_empty.mpr hS
        have hEl : 0 < cfg.EndDate.length := length_pos_iff_ne_empty.mpr hE
        simp [windowKeep, useTimeFilter, hSl, hEl, hs, he, checkTime, hS, hE]
  · intro cfg fetch hyd fuel us ts h
    obtain ⟨items, ps, hc, hsp, _, hts⟩ := forkers_ok h
    exact ⟨items, hc, by rw [hts, specTimedPairs_snd hsp]⟩
  · intro cfg fetch hyd onlyID fuel us ts h
    obtain ⟨items, ps, hc, hsp, _, hts⟩ := stargazers_ok h
    exact ⟨items, hc, by rw [hts, specTimedPairs_snd hsp]⟩

/-- Witness for `window_filter_semantics` at the window `[5, 20]`:
timestamp `10` passes; the fork run keeps `10` and drops `99`, the stargazer
run keeps `15` and drops `30`. -/
theorem window_filter_semantics_witness :
    (windowKeep cfgWin 10 = true ↔
      ((cfgWin.StartDate ≠ "" ∧ cfgWin.EndDate ≠ "") → ((5:Int) ≤ 10 ∧ (10:Int) ≤ 20))) ∧
    (∃ items, ChainItems fetchForkOk 0 items ∧
      [10] = (items.filter (fun it => windowKeep cfgWin it.createdAt)).map ForkItem.createdAt) ∧
    (∃ items, ChainItems fetchStarOk 0 items ∧
      [15] = (items.filter (fun it => windowKeep cfgWin it.starredAt)).map StarItem.starredAt) :=
  ⟨window_filter_semantics.1 cfgWin 5 20 10 rfl rfl,
    window_filter_semantics.2.1 cfgWin fetchForkOk hydOk 1 [⟨0, 1⟩] [10] rfl,
    window_filter_semantics.2.2 cfgWin fetchStarOk hydOk true 1 [⟨9, 77⟩] [15] rfl⟩

/-- C7: on every completed run of `listForkers` and `listStargazers` the
users and times are the two projections of one list of (actor, event time)
pairs built from the kept items only, so they have equal length and are
positionally aligned, and a filtered-out item contributes to neither. -/
theorem users_times_aligned :
    (∀ cfg fetch hyd fuel us ts,
      listForkers cfg fetch hyd fuel = some (.ok (us, ts)) →
      ∃ items ps, ChainItems fetch 0 items ∧
        specTimedPairs (windowKeep cfg) ForkItem.createdAt
          (fun it => hyd it.ownerId) items = .ok ps ∧
        us = ps.map Prod.fst ∧ ts = ps.map Prod.snd ∧ us.length = ts.length) ∧
    (∀ cfg fetch hyd onlyID fuel us ts,
      listStargazers cfg fetch hyd onlyID fuel = some (.ok (us, ts)) →
      ∃ items ps, ChainItems fetch 0 items ∧
        specTimedPairs (windowKeep cfg) StarItem.starredAt
          (starResolve onlyID hyd) items = .ok ps ∧
        us = ps.map Prod.fst ∧ ts = ps.map Prod.snd ∧ us.length = ts.length) := by
  constructor
  · intro cfg fetch hyd fuel us ts h
    obtain ⟨items, ps, hc, hsp, hus, hts⟩ := forkers_ok h
    exact ⟨items, ps, hc, hsp, hus, hts, by rw [hus, hts]; simp⟩
  · intro cfg fetch hyd onlyID fuel us ts h
    obtain ⟨items, ps, hc, hsp, hus, hts⟩ := stargazers_ok h
    exact ⟨items, ps, hc, hsp, hus, hts, by rw [hus, hts]; simp⟩

/-- Witness for `users_times_aligned` on concrete one-page runs. -/
theorem users_times_aligned_witness :
    (∃ items ps, ChainItems fetchForkOk 0 items ∧
      specTimedPairs (windowKeep cfgWin) ForkItem.createdAt
        (fun it => hydOk it.ownerId) items = .ok ps ∧
      [(⟨0, 1⟩ : GUser)] = ps.map Prod.fst ∧ [(10 : Int)] = ps.map Prod.snd ∧
      [(⟨0, 1⟩ : GUser)].length = [(10 : Int)].length) ∧
    (∃ items ps, ChainItems fetchStarOk 0 items ∧
      specTimedPairs (windowKeep cfgWin) StarItem.starredAt
        (starResolve true hydOk) items = .ok ps ∧
      [(⟨9, 77⟩ : GUser)] = ps.map Prod.fst ∧ [(15 : Int)] = ps.map Prod.snd ∧
      [(⟨9, 77⟩ : GUser)].length = [(15 : Int)].length) :=
  ⟨users_times_aligned.1 cfgWin fetchForkOk hydOk 1 [⟨0, 1⟩] [10] rfl,
    users_times_aligned.2 cfgWin fetchStarOk hydOk true 1 [⟨9, 77⟩] [15] rfl⟩

lemma keep_cond_utf {cfg : Config} {s en t : Int}
    (hu : useTimeFilter cfg = true) (hs : parseDate cfg.StartDate = .ok s)
    (he : parseDate cfg.EndDate = .ok en) (hk : windowKeep cfg t = true) :
    ((true : Bool) && !(checkTime s en t)) = false := by
  rw [windowKeep_utf hu hs he] at hk
  simpa using hk

/-- C4: if any remote call that the `listForkers` run reaches fails — the
page fetch at a reached token, or the hydration of a kept item on a reached
page — then no amount of fuel lets the run complete (`some (.ok _)`), and
some fuel makes it abort with an error; the error return carries no user or
timestamp sequence. -/
theorem remote_failure_aborts :
    ∀ (cfg : Config) (fetch : FetchFn ForkItem) (hyd : HydrateFn) (tok : Nat),
      Reach fetch 0 tok →
      ((∃ e, fetch tok = .error e) ∨
        (∃ pg it, fetch tok = .ok pg ∧ it ∈ pg.items ∧
          windowKeep cfg it.createdAt = true ∧ ∃ e, hyd it.ownerId = .error e)) →
      (∀ fuel out, listForkers cfg fetch hyd fuel ≠ some (.ok out)) ∧
      (∃ fuel e2, listForkers cfg fetch hyd fuel = some (.error e2)) := by
  intro cfg fetch hyd tok hr hfail
  cases hu : useTimeFilter cfg with
  | false =>
    have hfail2 : (∃ e, fetch tok = .error e) ∨
        (∃ pg it, fetch tok = .ok pg ∧ it ∈ pg.items ∧ ∀ s1, ∃ e2,
          timedStep ForkItem.createdAt (fun it => hyd it.ownerId) false 0 0 s1 it = .error e2) := by
      rcases hfail with hL | ⟨pg, it, hok, hit, _, e, herr⟩
      · exact Or.inl hL
      · exact Or.inr ⟨pg, it, hok, hit, fun s1 =>
          ⟨e, @timedStep_fails ForkItem ForkItem.createdAt (fun it2 => hyd it2.ownerId)
            false 0 0 it e (Bool.false_and _) herr s1⟩⟩
    constructor
    · intro fuel out h
      unfold listForkers withWindow at h
      rw [hu] at h
      simp only [Bool.false_eq_true, if_false] at h
      exact collect_no_ok_of_fail hr hfail2 fuel ([], []) out h
    · obtain ⟨f, e2, hl⟩ := collect_err_of_fail hr hfail2 ([], [])
      refine ⟨f, e2, ?_⟩
      unfold listForkers withWindow
      rw [hu]
      simp only [Bool.false_eq_true, if_false]
      exact hl
  | true =>
    cases hs : parseDate cfg.StartDate with
    | error e =>
      constructor
      · intro fuel out h
        unfold listForkers withWindow at h
        rw [hu] at h
        simp [hs] at h
      · exact ⟨0, e, by unfold listForkers withWindow; rw [hu]; simp [hs]⟩
    | ok s =>
      cases he : parseDate cfg.EndDate with
      | error e =>
        constructor
        · intro fuel out h
          unfold listForkers withWindow at h
          rw [hu] at h
          simp [hs, he] at h
        · exact ⟨0, e, by unfold listForkers withWindow; rw [hu]; simp [hs, he]⟩
      | ok en =>
        have hfail2 : (∃ e, fetch tok = .error e) ∨
            (∃ pg it, fetch tok = .ok pg ∧ it ∈ pg.items ∧ ∀ s1, ∃ e2,
              timedStep ForkItem.createdAt (fun it => hyd it.ownerId) true s en s1 it = .error e2) := by
          rcases hfail with hL | ⟨pg, it, hok, hit, hkeep, e, herr⟩
          · exact Or.inl hL
          · exact Or.inr ⟨pg, it, hok, hit, fun s1 =>
              ⟨e, @timedStep_fails ForkItem ForkItem.createdAt (fun it2 => hyd it2.ownerId)
                true s en it e (keep_cond_utf hu hs he hkeep) herr s1⟩⟩
        constructor
        · intro fuel out h
          unfold listForkers withWindow at h
          rw [hu] at h
          simp only [if_true, hs, he] at h
          exact collect_no_ok_of_fail hr hfail2 fuel ([], []) out h
        · obtain ⟨f, e2, hl⟩ := collect_err_of_fail hr hfail2 ([], [])
          refine ⟨f, e2, ?_⟩
          unfold listForkers withWindow
          rw [hu]
          simp only [if_true, hs, he]
          exact hl

/-- Witness for `remote_failure_aborts`: the second page fetch fails with
`"boom"`, so no fuel yields a completed run and some fuel yields an error. -/
theorem remote_failure_aborts_witness :
    (∀ fuel out, listForkers cfgNone fetchForkErr hydOk fuel ≠ some (.ok out)) ∧
    (∃ fuel e2, listForkers cfgNone fetchForkErr hydOk fuel = some (.error e2)) :=
  remote_failure_aborts cfgNone fetchForkErr hydOk 2
    (Reach.step 0 0 ⟨[], 2⟩ (Reach.refl 0) (by rfl) (by decide))
    (Or.inl ⟨"boom", rfl⟩)

/-! ### `listUsers` claims -/

/-- A line that `listUsers` processes without aborting: it has a first field,
the field parses as an integer, and the lookup succeeds. -/
def lineOK (hyd : HydrateFn) (line : List Char) : Bool :=
  match lineFields line with
  | [] => false
  | d :: _ =>
    match parseInt64 d with
    | .error _ => false
    | .ok id =>
      match hyd id with
      | .error _ => false
      | .ok _ => true

/-- A malformed line: it has a first field but the field is not a valid
numeric identifier. -/
def lineMalformed (line : List Char) : Bool :=
  match lineFields line with
  | [] => false
  | d :: _ =>
    match parseInt64 d with
    | .error _ => true
    | .ok _ => false

lemma processLines_no_skip {hyd : HydrateFn} {line : List Char} {post : List (List Char)}
    (hbad : lineMalformed line = true) :
    ∀ (pre : List (List Char)) (acc : List GUser), (∀ l ∈ pre, lineOK hyd l = true) →
      ∃ e, processLines hyd (pre ++ line :: post) acc = some (.error e) := by
  intro pre
  induction pre with
  | nil =>
    intro acc _
    unfold lineMalformed at hbad
    cases hf : lineFields line with
    | nil => simp [hf] at hbad
    | cons d rest =>
      simp only [hf] at hbad
      cases hp : parseInt64 d with
      | ok id => simp [hp] at hbad
      | error e =>
        exact ⟨e, by simp [processLines, hf, hp]⟩
  | cons l pre ih =>
    intro acc hok
    have hl : lineOK hyd l = true := hok l (List.mem_cons_self l pre)
    unfold lineOK at hl
    cases hf : lineFields l with
    | nil => simp [hf] at hl
    | cons d rest =>
      simp only [hf] at hl
      cases hp : parseInt64 d with
      | error e => simp [hp] at hl
      | ok id =>
        simp only [hp] at hl
        cases hh : hyd id with
        | error e => simp [hh] at hl
        | ok u =>
          have step : processLines hyd ((l :: pre) ++ line :: post) acc =
              processLines hyd (pre ++ line :: post) (acc ++ [u]) := by
            simp [processLines, hf, hp, hh]
          rw [step]
          exact ih (acc ++ [u]) (fun l2 h2 => hok l2 (List.mem_cons_of_mem l h2))

/-- C8: if the input file has a newline-terminated line whose first field is
not a valid numeric identifier, and the lines before it are processed without
incident, `listUsers` aborts with an error — it returns no user list and does
not skip the malformed line. -/
theorem listUsers_malformed_aborts :
    ∀ (hyd : HydrateFn) (content : List Char) (pre : List (List Char))
      (line : List Char) (post : List (List Char)),
      (readLines content).1 = pre ++ line :: post →
      (∀ l ∈ pre, lineOK hyd l = true) →
      lineMalformed line = true →
      ∃ e, listUsers hyd content = some (.error e) := by
  intro hyd content pre line post hsplit hok hbad
  unfold listUsers
  rw [hsplit]
  exact processLines_no_skip hbad pre [] hok

/-- Witness for `listUsers_malformed_aborts` on the file `"12\nxx\n"`. -/
theorem listUsers_malformed_aborts_witness :
    ∃ e, listUsers hydOk ("12\nxx\n".toList) = some (.error e) :=
  listUsers_malformed_aborts hydOk ("12\nxx\n".toList)
    ["12\n".toList] ("xx\n".toList) [] rfl (by decide) (by decide)

/-- C9 (counterexample): on a file consisting of one blank newline-terminated
line, `strings.Fields` returns an empty slice and `datas[0]` is out of range
(a runtime panic in Go, embedded as `none`). -/
theorem listUsers_blank_line_panics :
    listUsers hydOk ['\n'] = none := rfl

lemma processLines_total {hyd : HydrateFn} :
    ∀ {lines : List (List Char)} (acc : List GUser), (∀ l ∈ lines, lineFields l ≠ []) →
      ∃ r, processLines hyd lines acc = some r := by
  intro lines
  induction lines with
  | nil => exact fun acc _ => ⟨.ok acc, rfl⟩
  | cons l ls ih =>
    intro acc hne
    cases hf : lineFields l with
    | nil => exact absurd hf (hne l (List.mem_cons_self l ls))
    | cons d rest =>
      cases hp : parseInt64 d with
      | error e => exact ⟨.error e, by simp [processLines, hf, hp]⟩
      | ok id =>
        cases hh : hyd id with
        | error e => exact ⟨.error e, by simp [processLines, hf, hp, hh]⟩
        | ok u =>
          obtain ⟨r, hr⟩ := ih (acc ++ [u]) (fun l2 h2 => hne l2 (List.mem_cons_of_mem l h2))
          exact ⟨r, by simp [processLines, hf, hp, hh, hr]⟩

/-- C9 (amended): the `datas[0]` access of `listUsers` is within bounds for
every input file in which each newline-terminated line contains at least one
field (some non-whitespace character); a blank or whitespace-only terminated
line reaches the out-of-range access instead. -/
theorem listUsers_inbounds_amended :
    ∀ (hyd : HydrateFn) (content : List Char),
      (∀ l ∈ (readLines content).1, lineFields l ≠ []) →
      ∃ r, listUsers hyd content = some r := by
  intro hyd content h
  unfold listUsers
  exact processLines_total [] h

/-- Witness for `listUsers_inbounds_amended` on the file `"12\n"`. -/
theorem listUsers_inbounds_amended_witness :
    ∃ r, listUsers hydOk ("12\n".toList) = some r :=
  listUsers_inbounds_amended hydOk ("12\n".toList) (by decide)

lemma readLinesAux_no_newline {t : List Char} (h : '\n' ∉ t) :
    ∀ acc, (readLinesAux acc t).1 = [] := by
  induction t with
  | nil => intro acc; rfl
  | cons c cs ih =>
    intro acc
    have hc : ¬(c = '\n') := fun he => h (he ▸ List.mem_cons_self c cs)
    simp only [readLinesAux, if_neg hc]
    exact ih (fun hm => h (List.mem_cons_of_mem c hm)) (c :: acc)

lemma readLinesAux_append {extra : List Char} (hx : '\n' ∉ extra) :
    ∀ (s : List Char) (acc), (readLinesAux acc (s ++ extra)).1 = (readLinesAux acc s).1 := by
  intro s
  induction s with
  | nil =>
    intro acc
    rw [List.nil_append]
    rw [readLinesAux_no_newline hx acc]
    rfl
  | cons c cs ih =>
    intro acc
    by_cases hc : c = '\n'
    · subst hc
      simp [readLinesAux, ih []]
    · simp only [List.cons_append, readLinesAux, if_neg hc]
      exact ih (c :: acc)

/-- C10: appending a newline-free tail to the file content does not change
`listUsers` at all (for every hydration function), so the unterminated final
line is never looked up and is omitted from the returned list: the read loop
breaks on `io.EOF` before processing the data returned with it. -/
theorem listUsers_drops_unterminated_tail :
    ∀ (hyd : HydrateFn) (content extra : List Char),
      '\n' ∉ extra →
      listUsers hyd (content ++ extra) = listUsers hyd content := by
  intro hyd content extra hx
  unfold listUsers readLines
  rw [readLinesAux_append hx]

/-- Witness for `listUsers_drops_unterminated_tail`: the unterminated `"99"`
is dropped and the run returns only the user for the terminated line `"7"`. -/
theorem listUsers_drops_unterminated_tail_witness :
    listUsers hydOk ("7\n".toList ++ "99".toList) = listUsers hydOk ("7\n".toList) ∧
    listUsers hydOk ("7\n".toList) = some (.ok [⟨0, 7⟩]) :=
  ⟨listUsers_drops_unterminated_tail hydOk ("7\n".toList) ("99".toList) (by decide), rfl⟩

end Community
